import Mathlib

/-!
Verification development for the renderer-yaml render pipeline
(k8s-manifest-kit/renderer-yaml).

Go strings are modelled as their character sequences (`List Char`), so that
every operation reduces in the kernel.  Pure Go functions become Lean
functions; the fallible ones return `Except`.  Functions whose bodies live in
`pkg/yaml.go` or in the shared `k8s-manifest-kit/pkg/util/cache` module (which
are not part of this source tree — only their callers, options and tests are)
are modelled from the specification and say so in their doc comments.
-/

/-- Go strings, modelled as their character sequences. -/
abbrev Str := List Char

deriving instance DecidableEq for Except

/-- Character class trimmed by Go's strings.TrimSpace: ASCII whitespace plus
the two Latin-1 white space code points Go's unicode.IsSpace fast path
recognises (NEL and NBSP). -/
def isGoSpace (c : Char) : Bool :=
  c = ' ' || c = '\t' || c = '\n' || c = '\x0b' || c = '\x0c' || c = '\r' ||
  c = '\u0085' || c = '\u00A0'

/-- strings.TrimSpace: drop leading and trailing whitespace. -/
def trimSpace (s : Str) : Str :=
  ((s.dropWhile isGoSpace).reverse.dropWhile isGoSpace).reverse

/-- One enumerable entry of an fs.FS filesystem: its path, whether it is a
directory, and (for files) its byte content. -/
structure FsEntry where
  path : Str
  isDir : Bool
  data : Str
deriving DecidableEq, Repr

/-- An fs.FS filesystem: its enumerable entries, in enumeration order.
The enumeration order is NOT meaningful; theorems about determinism
quantify over permutations of it. -/
abbrev Fsys := List FsEntry

/-- YAMLSpec from pkg/yaml_cache.go: the data used to generate cache keys. -/
structure YAMLSpec where
  Path : Str
deriving DecidableEq, Repr

/-- CacheKeyFunc from pkg/yaml_cache.go. -/
abbrev CacheKeyFunc := YAMLSpec → Str

/-- FastCacheKey from pkg/yaml_cache.go: the key function it returns yields
the path pattern itself. -/
def FastCacheKey : CacheKeyFunc :=
  fun spec => spec.Path

/-- PathOnlyCacheKey from pkg/yaml_cache.go: the key function it returns
yields the path pattern itself (documented as an alias for FastCacheKey). -/
def PathOnlyCacheKey : CacheKeyFunc :=
  fun spec => spec.Path

/-- Source from pkg/yaml.go (shape shown throughout the docs and tests):
a nilable filesystem and a glob path pattern. -/
structure Source where
  FS : Option Fsys
  Path : Str
deriving DecidableEq

/-- Construction-time error kinds (ErrFsRequired, ErrPathEmpty from
k8s-manifest-kit/pkg/util/errors; noSources per spec section 7). -/
inductive ConfigError where
  | fsRequired
  | pathEmpty
  | noSources
deriving DecidableEq, Repr

/-- sourceHolder.Validate from yaml_support.go: error when the filesystem is
nil, or when the path is empty after strings.TrimSpace. -/
def Source.Validate (h : Source) : Except ConfigError Unit :=
  if h.FS.isNone then .error .fsRequired
  else if (trimSpace h.Path).length = 0 then .error .pathEmpty
  else .ok ()

/-- Document: per spec section 3, an opaque structured value with identity
fields apiVersion, kind, metadata.name, namespace, and an annotation map. -/
structure Document where
  apiVersion : Str
  kind : Str
  name : Str
  ns : Str
  annotations : List (Str × Str)
deriving DecidableEq, Repr, Inhabited

/-- Filter contract from engine types (spec section 6): Document to bool. -/
abbrev DocFilter := Document → Bool

/-- Transformer contract from engine types (spec section 6):
Document to (Document, error). -/
abbrev DocTransformer := Document → Except Str Document

/-- RendererOptions from pkg/yaml_option.go: filters, transformers, cache
configuration (none = caching disabled), source-annotation toggle, and the
pluggable cache key function (none = DefaultCacheKey). -/
structure RendererOptions where
  Filters : List DocFilter
  Transformers : List DocTransformer
  CacheTTL : Option Nat
  SourceAnnotations : Bool
  CacheKeyFn : Option CacheKeyFunc

/-- Options value before any option is applied. -/
def defaultOptions : RendererOptions :=
  { Filters := [], Transformers := [], CacheTTL := none,
    SourceAnnotations := false, CacheKeyFn := none }

/-- Renderer value produced by successful construction. -/
structure Renderer where
  sources : List Source
  opts : RendererOptions

/-- First validation error among the sources, if any. -/
def firstInvalid (sources : List Source) : Option ConfigError :=
  sources.findSome? (fun s =>
    match s.Validate with
    | .error e => some e
    | .ok _ => none)

/-- Modelled from the spec: `New` (pkg/yaml.go) is not under src/.  Per spec
section 7, construction validates every source (sourceHolder.Validate, which
is under src/) and fails closed before any render: zero sources, a missing
filesystem or an empty/whitespace pattern yield a ConfigurationError and no
Renderer value. -/
def New (sources : List Source) (opts : RendererOptions) :
    Except ConfigError Renderer :=
  if sources.isEmpty then .error .noSources
  else
    match firstInvalid sources with
    | some e => .error e
    | none => .ok { sources := sources, opts := opts }

/-- Error type of NewEngine: a renderer construction error, wrapped. -/
inductive EngineError where
  | rendererError (e : ConfigError)
deriving DecidableEq, Repr

/-- Engine value produced by engine.New (external collaborator); it only
carries the renderer here. -/
structure Engine where
  renderers : List Renderer

/-- NewEngine from src (engine.go): builds a renderer for the single source
via New and wraps any error; engine.New itself is an external collaborator
and is modelled as succeeding on a well-formed renderer. -/
def NewEngine (source : Source) (opts : RendererOptions) :
    Except EngineError Engine :=
  match New [source] opts with
  | .error e => .error (.rendererError e)
  | .ok r => .ok { renderers := [r] }

/-- Go path.Match meta characters: a pattern containing none of these is an
exact (non-glob) path. -/
def isGlobMeta (c : Char) : Bool :=
  c = '*' || c = '?' || c = '['

/-- True when the pattern contains a glob meta character. -/
def isGlobPattern (pat : Str) : Bool :=
  pat.any isGlobMeta

/-- Recognized document-file extensions: the long and short YAML suffixes. -/
def hasYamlExt (p : Str) : Bool :=
  List.isSuffixOf ".yaml".data p || List.isSuffixOf ".yml".data p

/-- SourceMatcher error kinds (ErrNoFilesMatched, ErrPathIsDirectory from
docs/design.md). -/
inductive MatchError where
  | noFilesMatched
  | pathIsDirectory
deriving DecidableEq, Repr

/-- Modelled from the spec: SourceMatcher.Match (pkg/yaml.go) is not under
src/.  Per spec section 4.1 it applies the pattern to the filesystem's
entries (pattern syntax is filesystem-defined, so the glob matcher is a
parameter), silently discards entries without a recognized extension,
excludes matched directories — except that an exact non-glob pattern naming a
directory is a hard PathIsDirectory error — treats zero survivors as a hard
NoFilesMatched error, and sorts the result lexicographically by full path.
Here: the entries the pattern matches at all. -/
def matchCandidates (glob : Str → Str → Bool) (fsys : Fsys)
    (pattern : Str) : List FsEntry :=
  fsys.filter (fun e => glob pattern e.path)

/-- The entries surviving extension filtering and directory exclusion. -/
def matchFiles (glob : Str → Str → Bool) (fsys : Fsys) (pattern : Str) :
    List FsEntry :=
  (matchCandidates glob fsys pattern).filter
    (fun e => !e.isDir && hasYamlExt e.path)

/-- The pattern is an exact non-glob path naming a matched directory. -/
def exactDirClash (glob : Str → Str → Bool) (fsys : Fsys)
    (pattern : Str) : Bool :=
  !isGlobPattern pattern &&
    (matchCandidates glob fsys pattern).any
      (fun e => e.path == pattern && e.isDir)

def Match (glob : Str → Str → Bool) (fsys : Fsys) (pattern : Str) :
    Except MatchError (List Str) :=
  if exactDirClash glob fsys pattern then .error .pathIsDirectory
  else if (matchFiles glob fsys pattern).isEmpty then
    .error .noFilesMatched
  else
    .ok (List.insertionSort (· ≤ ·)
      ((matchFiles glob fsys pattern).map FsEntry.path))

/-- Split a character stream into lines at the newline character (the
newline is consumed). -/
def splitNL : Str → List Str
  | [] => [[]]
  | c :: cs =>
    if c = '\n' then [] :: splitNL cs
    else
      match splitNL cs with
      | [] => [[c]]
      | l :: ls => (c :: l) :: ls

/-- Rejoin lines with newlines (inverse of splitNL). -/
def joinNL : List Str → Str
  | [] => []
  | [l] => l
  | l :: ls => l ++ '\n' :: joinNL ls

/-- A document-separator line: its content is exactly the standard YAML
block separator once surrounding whitespace is trimmed. -/
def isSepLine (l : Str) : Bool :=
  trimSpace l == "---".data

/-- Group a line list into segments delimited by separator lines (the
separator lines themselves are dropped). -/
def splitOnSep : List Str → List (List Str)
  | [] => [[]]
  | l :: ls =>
    if isSepLine l then [] :: splitOnSep ls
    else
      match splitOnSep ls with
      | [] => [[l]]
      | g :: gs => (l :: g) :: gs

/-- A whitespace-only (or empty) character stream. -/
def blank (cs : Str) : Bool :=
  cs.all isGoSpace

/-- Parse each segment in order, numbering them; the first failure aborts
with the failing segment index. -/
def decodeSegs {D E : Type} (parse : Str → Except E D) :
    List Str → Nat → Except (Nat × E) (List D)
  | [], _ => .ok []
  | t :: ts, i =>
    match parse t with
    | .error e => .error (i, e)
    | .ok d =>
      match decodeSegs parse ts (i + 1) with
      | .error err => .error err
      | .ok ds => .ok (d :: ds)

/-- Modelled from the spec: DocumentDecoder.DecodeAll (k8s.DecodeYAML via
pkg/yaml.go) is not under src/.  Per spec section 4.2 it splits the input on
document-separator lines, drops empty/whitespace-only segments (they
contribute nothing and are not an error), and parses each remaining segment
independently in order; the YAML parser itself is an external collaborator
and is a parameter. -/
def DecodeAll {D E : Type} (parse : Str → Except E D) (input : Str) :
    Except (Nat × E) (List D) :=
  decodeSegs parse
    (((splitOnSep (splitNL input)).map joinNL).filter (fun t => !blank t)) 0

/-- Modelled from the spec: the Pipeline filter stage (pkg/yaml.go) is not
under src/.  Per spec section 4.4 a document survives only if every filter
keeps it (logical AND, short-circuiting). -/
def applyFilters (filters : List DocFilter) (docs : List Document) :
    List Document :=
  docs.filter (fun d => filters.all (fun f => f d))

/-- Run the transformer list left to right on one document; the first error
aborts. -/
def transformDoc (ts : List DocTransformer) (d : Document) :
    Except Str Document :=
  match ts with
  | [] => .ok d
  | t :: rest =>
    match t d with
    | .error e => .error e
    | .ok d2 => transformDoc rest d2

/-- Apply the transformer list to every document in order; a transformer
error aborts the whole batch (spec section 4.4). -/
def applyTransformers (ts : List DocTransformer) :
    List Document → Except Str (List Document)
  | [] => .ok []
  | d :: ds =>
    match transformDoc ts d with
    | .error e => .error e
    | .ok d2 =>
      match applyTransformers ts ds with
      | .error e => .error e
      | .ok ds2 => .ok (d2 :: ds2)

/-- Modelled from the spec: Pipeline.Apply (pkg/yaml.go) is not under src/.
Per spec sections 4.4 and 4.6, filters run before transformers, both in
configuration order. -/
def pipelineApply (filters : List DocFilter) (ts : List DocTransformer)
    (docs : List Document) : Except Str (List Document) :=
  applyTransformers ts (applyFilters filters docs)

/-- Provenance annotation key for the renderer kind (docs/design.md). -/
def rendererKeyName : Str := "k8s-manifest-kit.io/renderer".data

/-- Provenance annotation key for the originating file (docs/design.md). -/
def sourceFileKeyName : Str := "k8s-manifest-kit.io/source.file".data

/-- Add the pair only when the key is not already present (spec section 4.3:
stamping never overwrites pre-existing keys). -/
def setIfAbsent (m : List (Str × Str)) (k v : Str) : List (Str × Str) :=
  if m.any (fun kv => kv.1 == k) then m else m ++ [(k, v)]

/-- Modelled from the spec: AnnotationStamper.Stamp (pkg/yaml.go) is not
under src/.  Per spec section 4.3 and docs/design.md it sets the renderer
kind and originating file provenance annotations, without overwriting
pre-existing keys. -/
def Stamp (d : Document) (sourceFile : Str) : Document :=
  let a1 := setIfAbsent d.annotations rendererKeyName "yaml".data
  { d with annotations := setIfAbsent a1 sourceFileKeyName sourceFile }

/-- Read a file's bytes by path (fs.ReadFile over the modelled fs.FS). -/
def readFile (fsys : Fsys) (p : Str) : Option Str :=
  (fsys.find? (fun e => e.path == p)).map FsEntry.data

/-- Render-time error kinds (spec section 7). -/
inductive RenderError (E : Type) where
  | matchErr (e : MatchError)
  | fileMissing (p : Str)
  | decodeErr (p : Str) (i : Nat) (e : E)
  | transformErr (e : Str)
deriving DecidableEq

/-- Load and decode one matched file, stamping provenance when enabled. -/
def loadPath {E : Type} (parse : Str → Except E Document) (stampOn : Bool)
    (fsys : Fsys) (p : Str) : Except (RenderError E) (List Document) :=
  match readFile fsys p with
  | none => .error (.fileMissing p)
  | some bytes =>
    match DecodeAll parse bytes with
    | .error (i, e) => .error (.decodeErr p i e)
    | .ok ds => .ok (if stampOn then ds.map (fun d => Stamp d p) else ds)

/-- Load and decode every path of the list, concatenating in order. -/
def loadPaths {E : Type} (parse : Str → Except E Document) (stampOn : Bool)
    (fsys : Fsys) : List Str → Except (RenderError E) (List Document)
  | [] => .ok []
  | p :: ps =>
    match loadPath parse stampOn fsys p with
    | .error e => .error e
    | .ok ds =>
      match loadPaths parse stampOn fsys ps with
      | .error e => .error e
      | .ok rest => .ok (ds ++ rest)

/-- Modelled from the spec: the per-source loader of spec section 4.6 —
match the pattern, then read, decode and stamp each matched file in
sorted-path order. -/
def loadSource {E : Type} (glob : Str → Str → Bool)
    (parse : Str → Except E Document) (stampOn : Bool) (fsys : Fsys)
    (pattern : Str) : Except (RenderError E) (List Document) :=
  match Match glob fsys pattern with
  | .error e => .error (.matchErr e)
  | .ok paths => loadPaths parse stampOn fsys paths

/-- Modelled from the spec: Render orchestration (spec section 4.6) — for
each source in configuration order, load its documents and run the pipeline,
appending the post-pipeline sequences; the first fatal error aborts. -/
def renderAll {E : Type} (glob : Str → Str → Bool)
    (parse : Str → Except E Document) (filters : List DocFilter)
    (ts : List DocTransformer) (stampOn : Bool) :
    List (Fsys × Str) → Except (RenderError E) (List Document)
  | [] => .ok []
  | (fsys, pat) :: rest =>
    match loadSource glob parse stampOn fsys pat with
    | .error e => .error e
    | .ok docs =>
      match pipelineApply filters ts docs with
      | .error e => .error (.transformErr e)
      | .ok out =>
        match renderAll glob parse filters ts stampOn rest with
        | .error e => .error e
        | .ok outs => .ok (out ++ outs)

/-- Look a key up in an association list. -/
def lookupAssoc {K V : Type} [DecidableEq K] (es : List (K × V)) (k : K) :
    Option V :=
  (es.find? (fun x => x.1 == k)).map Prod.snd

/-- Replace a key's binding wholesale (spec section 3: cache entries are
never mutated in place). -/
def setAssoc {K V : Type} [DecidableEq K] (es : List (K × V)) (k : K)
    (v : V) : List (K × V) :=
  (k, v) :: es.filter (fun x => !(x.1 == k))

/-- Modelled from the spec: the single-flight discipline of the KeyedCache
(k8s-manifest-kit/pkg/util/cache, not under src/), as a labelled transition
system.  A state tracks the stored entries (value and expiry), the loader
computations in flight (key and leader caller), the callers blocked waiting
on an in-flight key, the results delivered to callers so far, and a log of
loader invocations. -/
structure FlightState (K V E : Type) where
  entries : List (K × (V × Nat))
  flights : List (K × Nat)
  waiting : List (K × Nat)
  delivered : List (Nat × Except E V)
  loaderLog : List K

/-- Keys with a computation currently in flight. -/
def flightKeys {K V E : Type} (s : FlightState K V E) : List K :=
  s.flights.map Prod.fst

/-- The entry for a key is missing or expired at the given instant. -/
def staleAt {K V : Type} [DecidableEq K] (es : List (K × (V × Nat)))
    (k : K) (now : Nat) : Bool :=
  match lookupAssoc es k with
  | none => true
  | some ve => ve.2 ≤ now

/-- Callers currently blocked on the given key. -/
def waitersOf {K V E : Type} [DecidableEq K] (s : FlightState K V E)
    (k : K) : List Nat :=
  (s.waiting.filter (fun w => w.1 == k)).map Prod.snd

/-- State after a cache hit delivers the (copied) value to a caller. -/
def hitPost {K V E : Type} (s : FlightState K V E) (c : Nat) (v : V) :
    FlightState K V E :=
  { s with delivered := (c, .ok v) :: s.delivered }

/-- State after a caller becomes leader and invokes the loader for a key. -/
def startPost {K V E : Type} (s : FlightState K V E) (k : K) (c : Nat) :
    FlightState K V E :=
  { s with flights := (k, c) :: s.flights, loaderLog := k :: s.loaderLog }

/-- State after a caller joins the waiters of an in-flight key. -/
def joinPost {K V E : Type} (s : FlightState K V E) (k : K) (c : Nat) :
    FlightState K V E :=
  { s with waiting := (k, c) :: s.waiting }

/-- State after the in-flight computation for a key completes with the given
result and new entry table: the flight is removed, and the leader and every
waiter for that key receive the same result. -/
def finishPost {K V E : Type} [DecidableEq K] (s : FlightState K V E)
    (k : K) (r : Except E V) (es : List (K × (V × Nat))) :
    FlightState K V E :=
  { entries := es,
    flights := s.flights.filter (fun f => !(f.1 == k)),
    waiting := s.waiting.filter (fun w => !(w.1 == k)),
    delivered :=
      (s.flights.filter (fun f => f.1 == k)).map (fun f => (f.2, r)) ++
        (waitersOf s k).map (fun c => (c, r)) ++ s.delivered,
    loaderLog := s.loaderLog }

/-- Successful completion: the computed value is stored with a fresh expiry
(spec section 4.5). -/
def finishOkPost {K V E : Type} [DecidableEq K] (s : FlightState K V E)
    (k : K) (v : V) (now ttl : Nat) : FlightState K V E :=
  finishPost s k (.ok v) (setAssoc s.entries k (v, now + ttl))

/-- Failed completion: the cache is NOT populated — the entry table is kept
as it was (spec section 4.5). -/
def finishErrPost {K V E : Type} [DecidableEq K] (s : FlightState K V E)
    (k : K) (e : E) : FlightState K V E :=
  finishPost s k (.error e) s.entries

/-- Modelled from the spec: one observable step of GetOrCompute (spec
section 4.5).  A caller either hits a live entry, starts the loader when the
entry is stale and no computation is in flight, joins the waiters of an
in-flight key, or an in-flight computation completes (successfully or not)
and delivers its result to the leader and every waiter. -/
inductive CacheStep {K V E : Type} [DecidableEq K] :
    FlightState K V E → FlightState K V E → Prop
  | hit (s : FlightState K V E) (k : K) (c : Nat) (v : V) (exp now : Nat) :
      lookupAssoc s.entries k = some (v, exp) → now < exp →
      CacheStep s (hitPost s c v)
  | start (s : FlightState K V E) (k : K) (c : Nat) (now : Nat) :
      staleAt s.entries k now = true → k ∉ flightKeys s →
      CacheStep s (startPost s k c)
  | join (s : FlightState K V E) (k : K) (c : Nat) :
      k ∈ flightKeys s →
      CacheStep s (joinPost s k c)
  | finishOk (s : FlightState K V E) (k : K) (v : V) (now ttl : Nat) :
      k ∈ flightKeys s →
      CacheStep s (finishOkPost s k v now ttl)
  | finishErr (s : FlightState K V E) (k : K) (e : E) :
      k ∈ flightKeys s →
      CacheStep s (finishErrPost s k e)

/-- The state of a freshly created cache instance. -/
def initFlight (K V E : Type) : FlightState K V E :=
  { entries := [], flights := [], waiting := [], delivered := [],
    loaderLog := [] }

/-- States reachable over the life of one cache instance. -/
inductive ReachableFS {K V E : Type} [DecidableEq K] :
    FlightState K V E → Prop
  | init : ReachableFS (initFlight K V E)
  | next {s t : FlightState K V E} :
      ReachableFS s → CacheStep s t → ReachableFS t

/-- A heap of mutable document cells; an address is an index.  This makes Go
reference semantics explicit, so that caller mutation of a returned slice is
expressible. -/
structure Heap (A : Type) where
  cells : List A
deriving Repr

/-- Read the cell at an address. -/
def Heap.readCell {A : Type} (h : Heap A) (a : Nat) : Option A :=
  h.cells[a]?

/-- Overwrite the cell at an address (a caller mutating a document it was
handed). -/
def Heap.writeCell {A : Type} (h : Heap A) (a : Nat) (v : A) : Heap A :=
  ⟨h.cells.set a v⟩

/-- Allocate a fresh cell holding the given value. -/
def Heap.allocCell {A : Type} (h : Heap A) (v : A) : Nat × Heap A :=
  (h.cells.length, ⟨h.cells ++ [v]⟩)

/-- The values behind a list of addresses. -/
def readCells {A : Type} (h : Heap A) (addrs : List Nat) : List (Option A) :=
  addrs.map h.readCell

/-- Allocate fresh cells for a list of values, in order. -/
def allocFresh {A : Type} (h : Heap A) : List A → List Nat × Heap A
  | [] => ([], h)
  | v :: vs =>
    let p := h.allocCell v
    let q := allocFresh p.2 vs
    (p.1 :: q.1, q.2)

/-- Deep copy: allocate a fresh cell per source address, holding a copy of
the source value (spec section 9: an explicit deep-copy routine at both
cache-write and cache-read). -/
def deepCopy {A : Type} [Inhabited A] (h : Heap A) :
    List Nat → List Nat × Heap A
  | [] => ([], h)
  | a :: as =>
    let p := h.allocCell ((h.readCell a).getD default)
    let q := deepCopy p.2 as
    (p.1 :: q.1, q.2)

/-- A KeyedCache over the document heap: each entry stores the addresses of
its privately owned document cells and an expiry instant. -/
structure HCache (K : Type) where
  heap : Heap Document
  entries : List (K × (List Nat × Nat))

/-- The miss path of GetOrCompute: run the loader; on failure the cache is
left unchanged; on success the result is deep-copied into privately owned
cells and a second, independent copy is handed to the caller.  The third
component counts loader invocations. -/
def computeMiss {K : Type} [DecidableEq K] (c : HCache K) (k : K)
    (now ttl : Nat) (loader : Unit → Except Str (List Document)) :
    Except Str (List Nat) × HCache K × Nat :=
  match loader () with
  | .error e => (.error e, c, 1)
  | .ok docs =>
    let p := allocFresh c.heap docs
    let q := deepCopy p.2 p.1
    (.ok q.1,
      { heap := q.2, entries := setAssoc c.entries k (p.1, now + ttl) }, 1)

/-- Modelled from the spec: GetOrCompute of the KeyedCache
(k8s-manifest-kit/pkg/util/cache, not under src/), sequential semantics over
the explicit heap.  On a hit with now strictly before the expiry it returns
a deep copy of the stored cells and does not invoke the loader; otherwise it
takes the miss path. -/
def GetOrCompute {K : Type} [DecidableEq K] (c : HCache K) (k : K)
    (now ttl : Nat) (loader : Unit → Except Str (List Document)) :
    Except Str (List Nat) × HCache K × Nat :=
  match lookupAssoc c.entries k with
  | some ae =>
    if now < ae.2 then
      let p := deepCopy c.heap ae.1
      (.ok p.1, { c with heap := p.2 }, 0)
    else computeMiss c k now ttl loader
  | none => computeMiss c k now ttl loader

/-- C10: for every YAMLSpec value, the key function returned by
PathOnlyCacheKey returns exactly the same string as the key function
returned by FastCacheKey — PathOnlyCacheKey is an exact alias, both return
the spec's path. -/
theorem pathOnlyCacheKey_eq_fastCacheKey (spec : YAMLSpec) :
    PathOnlyCacheKey spec = FastCacheKey spec :=
  rfl

/-- A string that is entirely whitespace trims to the empty string. -/
theorem trimSpace_eq_nil {s : Str} (h : s.all isGoSpace = true) :
    trimSpace s = [] := by
  have h1 : s.dropWhile isGoSpace = [] :=
    List.dropWhile_eq_nil_iff.mpr (fun x hx => List.all_eq_true.mp h x hx)
  simp [trimSpace, h1]

/-- A source with no filesystem, or an empty-or-whitespace path, fails
sourceHolder.Validate. -/
theorem validate_error_of_bad (src : Source)
    (hbad : src.FS = none ∨ src.Path.all isGoSpace = true) :
    ∃ e, src.Validate = .error e := by
  cases hfs : src.FS with
  | none => exact ⟨.fsRequired, by simp [Source.Validate, hfs]⟩
  | some v =>
    rcases hbad with h | h
    · rw [hfs] at h; exact absurd h (by simp)
    · exact ⟨.pathEmpty,
        by simp [Source.Validate, hfs, trimSpace_eq_nil h]⟩

/-- C4: renderer construction fails closed on invalid configuration — for
every Source whose filesystem is nil or whose path pattern is empty or
whitespace-only, New (when the source list contains it) and NewEngine return
an error and no Renderer or Engine value is produced. -/
theorem construction_fails_closed (sources : List Source)
    (opts : RendererOptions) (src : Source) (hmem : src ∈ sources)
    (hbad : src.FS = none ∨ src.Path.all isGoSpace = true) :
    (∃ e, New sources opts = .error e) ∧
    (∃ e, NewEngine src opts = .error e) := by
  obtain ⟨e0, he0⟩ := validate_error_of_bad src hbad
  constructor
  · have hne : sources.isEmpty = false :=
      List.isEmpty_eq_false.mpr (List.ne_nil_of_mem hmem)
    have hfi : firstInvalid sources ≠ none := by
      intro hnone
      have h2 := List.findSome?_eq_none_iff.mp hnone src hmem
      rw [he0] at h2
      simp at h2
    obtain ⟨e1, he1⟩ := Option.ne_none_iff_exists'.mp hfi
    exact ⟨e1, by simp [New, hne, he1]⟩
  · have hone : firstInvalid [src] = some e0 := by
      simp [firstInvalid, List.findSome?_cons, he0]
    exact ⟨.rendererError e0, by simp [NewEngine, New, hone]⟩

/-- Witness: a source with a nil filesystem is rejected by both New and
NewEngine. -/
theorem construction_fails_closed_witness :
    (∃ e, New [{ FS := none, Path := "*.yaml".data }] defaultOptions
        = .error e) ∧
    (∃ e, NewEngine { FS := none, Path := "*.yaml".data } defaultOptions
        = .error e) :=
  construction_fails_closed _ defaultOptions _ (List.mem_singleton_self _)
    (Or.inl rfl)

/-- C7: a document appears in the filter output iff every filter keeps it,
and permuting the filter list does not change the resulting sequence. -/
theorem filters_conjunctive_order_insensitive :
    (∀ (filters : List DocFilter) (docs : List Document) (d : Document),
        d ∈ applyFilters filters docs ↔
          d ∈ docs ∧ ∀ f ∈ filters, f d = true) ∧
    (∀ (fs1 fs2 : List DocFilter) (docs : List Document),
        fs1.Perm fs2 → applyFilters fs1 docs = applyFilters fs2 docs) := by
  constructor
  · intro filters docs d
    simp [applyFilters, List.mem_filter, List.all_eq_true]
  · intro fs1 fs2 docs hp
    unfold applyFilters
    refine List.filter_congr ?_
    intro d _
    rw [Bool.eq_iff_iff, List.all_eq_true, List.all_eq_true]
    exact ⟨fun H f hf => H f (hp.mem_iff.mpr hf),
           fun H f hf => H f (hp.mem_iff.mp hf)⟩

/-- A document with the given name and namespace and no annotations. -/
def docNamed (nm nsp : Str) : Document :=
  { apiVersion := "v1".data, kind := "Pod".data, name := nm, ns := nsp,
    annotations := [] }

/-- Reject documents named x. -/
def rejectNameX : DocFilter := fun d => !(d.name == "x".data)

/-- Reject documents in namespace y. -/
def rejectNsY : DocFilter := fun d => !(d.ns == "y".data)

/-- Witness: the two example filters applied in either order give the same
result on a two-document set. -/
theorem filters_conjunctive_order_insensitive_witness :
    applyFilters [rejectNameX, rejectNsY]
        [docNamed "x".data "y".data, docNamed "a".data "b".data] =
      applyFilters [rejectNsY, rejectNameX]
        [docNamed "x".data "y".data, docNamed "a".data "b".data] :=
  filters_conjunctive_order_insensitive.2 _ _ _ (List.Perm.swap _ _ _)

/-- C5: if zero eligible files survive extension filtering and directory
exclusion, Match never returns a successful result, and returns the hard
NoFilesMatched error whenever the exact-directory special case does not
apply. -/
theorem match_zero_survivors_error (glob : Str → Str → Bool) (fsys : Fsys)
    (pattern : Str) (hz : matchFiles glob fsys pattern = []) :
    (∀ l, Match glob fsys pattern ≠ .ok l) ∧
    (exactDirClash glob fsys pattern = false →
      Match glob fsys pattern = .error .noFilesMatched) := by
  have hempty : (matchFiles glob fsys pattern).isEmpty = true := by
    rw [hz]; rfl
  constructor
  · intro l
    unfold Match
    by_cases hd : exactDirClash glob fsys pattern
    · simp [hd]
    · simp [hd, hempty]
  · intro hd
    unfold Match
    simp [hd, hempty]

/-- A filesystem whose only entry has an unrecognized extension. -/
def fsysTxtOnly : Fsys :=
  [{ path := "c.txt".data, isDir := false, data := [] }]

/-- Witness: a pattern matching only c.txt yields no successful result but
the NoFilesMatched error. -/
theorem match_zero_survivors_error_witness :
    (∀ l, Match (fun _ _ => true) fsysTxtOnly "*".data ≠ .ok l) ∧
    (exactDirClash (fun _ _ => true) fsysTxtOnly "*".data = false →
      Match (fun _ _ => true) fsysTxtOnly "*".data
        = .error .noFilesMatched) :=
  match_zero_survivors_error _ _ _ (by decide)

/-- C8: a successful Match result is sorted lexicographically by full path,
every returned path has one of the two recognized extensions, and the result
contains exactly the surviving file entries — entries of any other extension
are silently discarded rather than errored. -/
theorem match_sorted_and_extension_filtered (glob : Str → Str → Bool)
    (fsys : Fsys) (pattern : Str) (l : List Str)
    (h : Match glob fsys pattern = .ok l) :
    List.Sorted (· ≤ ·) l ∧
    (∀ p ∈ l, hasYamlExt p = true) ∧
    (∀ p, p ∈ l ↔ ∃ e, e ∈ fsys ∧ glob pattern e.path = true ∧
        e.isDir = false ∧ hasYamlExt e.path = true ∧ e.path = p) := by
  unfold Match at h
  by_cases hd : exactDirClash glob fsys pattern
  · simp [hd] at h
  · by_cases he : (matchFiles glob fsys pattern).isEmpty
    · simp [hd, he] at h
    · simp only [hd, he, Bool.false_eq_true, if_false, Except.ok.injEq,
        ite_false] at h
      have hmem : ∀ p, p ∈ l ↔
          p ∈ (matchFiles glob fsys pattern).map FsEntry.path := by
        intro p
        rw [← h]
        exact (List.perm_insertionSort _ _).mem_iff
      refine ⟨h ▸ List.sorted_insertionSort _ _, ?_, ?_⟩
      · intro p hp
        rcases List.mem_map.mp ((hmem p).mp hp) with ⟨e, he2, rfl⟩
        simp only [matchFiles, matchCandidates, List.mem_filter,
          Bool.and_eq_true] at he2
        exact he2.2.2
      · intro p
        rw [hmem p, List.mem_map]
        constructor
        · rintro ⟨e, he2, rfl⟩
          simp only [matchFiles, matchCandidates, List.mem_filter,
            Bool.and_eq_true] at he2
          obtain ⟨⟨hfs, hglob⟩, hdir, hext⟩ := he2
          exact ⟨e, hfs, hglob, by simpa using hdir, hext, rfl⟩
        · rintro ⟨e, hfs, hglob, hdir, hext, rfl⟩
          refine ⟨e, ?_, rfl⟩
          simp only [matchFiles, matchCandidates, List.mem_filter]
          exact ⟨⟨hfs, hglob⟩, by simp [hdir, hext]⟩

/-- A filesystem holding a.yaml, b.yml and c.txt. -/
def fsysExtDemo : Fsys :=
  [{ path := "a.yaml".data, isDir := false, data := [] },
   { path := "b.yml".data, isDir := false, data := [] },
   { path := "c.txt".data, isDir := false, data := [] }]

/-- Witness: a pattern matching a.yaml, b.yml, c.txt yields exactly the two
candidate files, in sorted order. -/
theorem match_sorted_and_extension_filtered_witness :
    List.Sorted (· ≤ ·) ["a.yaml".data, "b.yml".data] ∧
    (∀ p ∈ ["a.yaml".data, "b.yml".data], hasYamlExt p = true) ∧
    (∀ p, p ∈ ["a.yaml".data, "b.yml".data] ↔ ∃ e, e ∈ fsysExtDemo ∧
        (fun (_ _ : Str) => true) "*".data e.path = true ∧
        e.isDir = false ∧ hasYamlExt e.path = true ∧ e.path = p) :=
  match_sorted_and_extension_filtered (fun _ _ => true) fsysExtDemo
    "*".data _ (by decide)

/-- splitNL always produces at least one line. -/
theorem splitNL_ne_nil (cs : Str) : splitNL cs ≠ [] := by
  cases cs with
  | nil => simp [splitNL]
  | cons c cs =>
    unfold splitNL
    by_cases h : c = '\n'
    · simp [h]
    · simp only [h, if_false]
      cases splitNL cs <;> simp

/-- Rejoining the split lines restores the original character stream. -/
theorem joinNL_splitNL (cs : Str) : joinNL (splitNL cs) = cs := by
  induction cs with
  | nil => rfl
  | cons c cs ih =>
    obtain ⟨l, ls, hls⟩ : ∃ l ls, splitNL cs = l :: ls := by
      cases hsp : splitNL cs with
      | nil => exact absurd hsp (splitNL_ne_nil cs)
      | cons l ls => exact ⟨l, ls, rfl⟩
    rw [hls] at ih
    unfold splitNL
    by_cases h : c = '\n'
    · subst h
      rw [if_pos rfl, hls]
      show joinNL ([] :: l :: ls) = '\n' :: cs
      rw [show joinNL ([] :: l :: ls) = [] ++ '\n' :: joinNL (l :: ls)
        from rfl]
      simp [ih]
    · rw [if_neg h, hls]
      cases ls with
      | nil =>
        show joinNL [c :: l] = c :: cs
        have h1 : joinNL [c :: l] = c :: l := rfl
        have h2 : joinNL [l] = l := rfl
        rw [h2] at ih
        rw [h1, ih]
      | cons g gs =>
        show joinNL ((c :: l) :: g :: gs) = c :: cs
        rw [show joinNL ((c :: l) :: g :: gs)
            = (c :: l) ++ '\n' :: joinNL (g :: gs) from rfl]
        rw [show joinNL (l :: g :: gs) = l ++ '\n' :: joinNL (g :: gs)
          from rfl] at ih
        simp [← ih]

/-- With no separator line present, the whole line list is one segment. -/
theorem splitOnSep_no_sep {ls : List Str}
    (h : ∀ l ∈ ls, isSepLine l = false) : splitOnSep ls = [ls] := by
  induction ls with
  | nil => rfl
  | cons l ls ih =>
    have hl : isSepLine l = false := h l (by simp)
    have ihh : splitOnSep ls = [ls] := ih (fun x hx => h x (by simp [hx]))
    unfold splitOnSep
    simp [hl, ihh]

/-- Every line of every segment comes from the original line list. -/
theorem mem_of_mem_splitOnSep {ls : List Str} {g : List Str} {x : Str}
    (hg : g ∈ splitOnSep ls) (hx : x ∈ g) : x ∈ ls := by
  induction ls generalizing g with
  | nil =>
    simp [splitOnSep] at hg
    subst hg
    simp at hx
  | cons l ls ih =>
    unfold splitOnSep at hg
    by_cases hsep : isSepLine l = true
    · rw [if_pos hsep] at hg
      rcases List.mem_cons.mp hg with h1 | h2
      · subst h1; simp at hx
      · exact List.mem_cons_of_mem _ (ih h2 hx)
    · rw [if_neg hsep] at hg
      cases hsp : splitOnSep ls with
      | nil => exact absurd hsp (by
          intro hc
          exact (by
            cases ls with
            | nil => simp [splitOnSep] at hc
            | cons a as =>
              unfold splitOnSep at hc
              by_cases ha : isSepLine a = true
              · rw [if_pos ha] at hc; simp at hc
              · rw [if_neg ha] at hc
                revert hc
                cases splitOnSep as <;> simp))
      | cons g0 gs =>
        rw [hsp] at hg
        rcases List.mem_cons.mp hg with h1 | h2
        · subst h1
          rcases List.mem_cons.mp hx with rfl | hx2
          · exact List.mem_cons_self _ _
          · have hg0 : g0 ∈ splitOnSep ls := by
              rw [hsp]; exact List.mem_cons_self _ _
            exact List.mem_cons_of_mem _ (ih hg0 hx2)
        · have hgm : g ∈ splitOnSep ls := by
            rw [hsp]; exact List.mem_cons_of_mem _ h2
          exact List.mem_cons_of_mem _ (ih hgm hx)

/-- Every character of every line comes from the original stream. -/
theorem mem_of_mem_splitNL {cs : Str} {l : Str} {x : Char}
    (hl : l ∈ splitNL cs) (hx : x ∈ l) : x ∈ cs := by
  induction cs generalizing l with
  | nil =>
    simp [splitNL] at hl
    subst hl
    simp at hx
  | cons c cs ih =>
    unfold splitNL at hl
    by_cases h : c = '\n'
    · rw [if_pos h] at hl
      rcases List.mem_cons.mp hl with h1 | h2
      · subst h1; simp at hx
      · exact List.mem_cons_of_mem _ (ih h2 hx)
    · rw [if_neg h] at hl
      obtain ⟨l0, ls0, hsp⟩ : ∃ l0 ls0, splitNL cs = l0 :: ls0 := by
        cases hsp : splitNL cs with
        | nil => exact absurd hsp (splitNL_ne_nil cs)
        | cons l0 ls0 => exact ⟨l0, ls0, rfl⟩
      rw [hsp] at hl
      rcases List.mem_cons.mp hl with h1 | h2
      · subst h1
        rcases List.mem_cons.mp hx with rfl | hx2
        · exact List.mem_cons_self _ _
        · have hl0 : l0 ∈ splitNL cs := by
            rw [hsp]; exact List.mem_cons_self _ _
          exact List.mem_cons_of_mem _ (ih hl0 hx2)
      · have hlm : l ∈ splitNL cs := by
          rw [hsp]; exact List.mem_cons_of_mem _ h2
        exact List.mem_cons_of_mem _ (ih hlm hx)

/-- Every line of a whitespace-only stream is whitespace-only. -/
theorem blank_of_mem_splitNL {cs : Str} (hb : blank cs = true) :
    ∀ l ∈ splitNL cs, blank l = true := by
  intro l hl
  rw [show blank l = l.all isGoSpace from rfl, List.all_eq_true]
  intro x hx
  exact List.all_eq_true.mp hb x (mem_of_mem_splitNL hl hx)

/-- Rejoining whitespace-only lines gives a whitespace-only stream. -/
theorem blank_joinNL {g : List Str} (h : ∀ l ∈ g, blank l = true) :
    blank (joinNL g) = true := by
  induction g with
  | nil => rfl
  | cons l g ih =>
    cases g with
    | nil => exact h l (by simp)
    | cons l2 g2 =>
      have h1 : blank l = true := h l (by simp)
      have h2 : blank (joinNL (l2 :: g2)) = true :=
        ih (fun x hx => h x (by simp [hx]))
      show ((l ++ '\n' :: joinNL (l2 :: g2)).all isGoSpace) = true
      rw [List.all_append]
      simp only [blank] at h1 h2
      simp [List.all_cons, h1, h2, show isGoSpace '\n' = true from rfl]

/-- The identity parser: treats each segment's text as the document itself
(the YAML library is an external collaborator). -/
def okParse : Str → Except Unit Str := fun s => .ok s

/-- The identity parser accepts every segment, in order. -/
theorem decodeSegs_ok (ts : List Str) (i : Nat) :
    decodeSegs okParse ts i = .ok ts := by
  induction ts generalizing i with
  | nil => rfl
  | cons t ts ih => simp [decodeSegs, okParse, ih]

/-- C6: DecodeAll splits a file's bytes on the document-separator line and
preserves order — three documents separated by two separator lines decode to
exactly three documents in file order; an input with no separator line
yields exactly one document when not whitespace-only; an empty or
whitespace-only input yields zero documents and no error. -/
theorem decodeAll_separator_split :
    (DecodeAll okParse "a: 1\n---\nb: 2\n---\nc: 3".data =
      .ok ["a: 1".data, "b: 2".data, "c: 3".data]) ∧
    (∀ cs : Str, (∀ l ∈ splitNL cs, isSepLine l = false) →
      blank cs = false → DecodeAll okParse cs = .ok [cs]) ∧
    (∀ cs : Str, blank cs = true → DecodeAll okParse cs = .ok []) := by
  refine ⟨by decide, ?_, ?_⟩
  · intro cs hns hnb
    unfold DecodeAll
    rw [splitOnSep_no_sep hns]
    rw [show ([splitNL cs].map joinNL) = [cs] by simp [joinNL_splitNL]]
    rw [show List.filter (fun t => !blank t) [cs] = [cs] by simp [hnb]]
    exact decodeSegs_ok [cs] 0
  · intro cs hb
    unfold DecodeAll
    have hall : ∀ t ∈ (splitOnSep (splitNL cs)).map joinNL,
        blank t = true := by
      intro t ht
      rcases List.mem_map.mp ht with ⟨g, hgmem, rfl⟩
      exact blank_joinNL
        (fun l hl => blank_of_mem_splitNL hb l (mem_of_mem_splitOnSep hgmem hl))
    rw [List.filter_eq_nil_iff.mpr (by intro a ha; simp [hall a ha])]
    rfl

/-- Witness: a whitespace-only file decodes to zero documents, no error. -/
theorem decodeAll_separator_split_witness :
    DecodeAll okParse "   \n\t  ".data = .ok [] :=
  decodeAll_separator_split.2.2 _ (by decide)

/-- Sorting with the lexicographic order is invariant under permutation of
the input list. -/
theorem insertionSort_perm_eq {l1 l2 : List Str} (h : l1.Perm l2) :
    List.insertionSort (· ≤ ·) l1 = List.insertionSort (· ≤ ·) l2 :=
  List.eq_of_perm_of_sorted
    ((List.perm_insertionSort _ l1).trans
      (h.trans (List.perm_insertionSort _ l2).symm))
    (List.sorted_insertionSort _ l1) (List.sorted_insertionSort _ l2)

/-- List.any is invariant under permutation. -/
theorem perm_any_eq {α : Type} {l1 l2 : List α} (h : l1.Perm l2)
    (p : α → Bool) : l1.any p = l2.any p := by
  rw [Bool.eq_iff_iff, List.any_eq_true, List.any_eq_true]
  constructor
  · rintro ⟨a, ha, hp⟩; exact ⟨a, h.mem_iff.mp ha, hp⟩
  · rintro ⟨a, ha, hp⟩; exact ⟨a, h.mem_iff.mpr ha, hp⟩

/-- Match is independent of the filesystem's enumeration order. -/
theorem match_perm (glob : Str → Str → Bool) {fs1 fs2 : Fsys}
    (h : fs1.Perm fs2) (pattern : Str) :
    Match glob fs1 pattern = Match glob fs2 pattern := by
  have hcand : (matchCandidates glob fs1 pattern).Perm
      (matchCandidates glob fs2 pattern) := h.filter _
  have hfiles : (matchFiles glob fs1 pattern).Perm
      (matchFiles glob fs2 pattern) := hcand.filter _
  have hclash : exactDirClash glob fs1 pattern
      = exactDirClash glob fs2 pattern := by
    unfold exactDirClash
    rw [perm_any_eq hcand]
  have hempty : (matchFiles glob fs1 pattern).isEmpty
      = (matchFiles glob fs2 pattern).isEmpty := by
    rw [Bool.eq_iff_iff, List.isEmpty_iff, List.isEmpty_iff]
    constructor
    · intro h1
      have h2 := hfiles.symm
      rw [h1] at h2
      exact h2.eq_nil
    · intro h1
      have h2 := hfiles
      rw [h1] at h2
      exact h2.eq_nil
  unfold Match
  rw [hclash, hempty]
  by_cases hc : exactDirClash glob fs2 pattern = true
  · rw [if_pos hc, if_pos hc]
  · rw [if_neg hc, if_neg hc]
    by_cases hemp : (matchFiles glob fs2 pattern).isEmpty = true
    · rw [if_pos hemp, if_pos hemp]
    · rw [if_neg hemp, if_neg hemp]
      rw [insertionSort_perm_eq (hfiles.map FsEntry.path)]

/-- With path-unique entries, reading a file is independent of the
enumeration order. -/
theorem readFile_perm {fs1 fs2 : Fsys} (h : fs1.Perm fs2)
    (hnd : (fs1.map FsEntry.path).Nodup) (p : Str) :
    readFile fs1 p = readFile fs2 p := by
  unfold readFile
  cases hf : fs1.find? (fun e => e.path == p) with
  | none =>
    have h2 : fs2.find? (fun e => e.path == p) = none := by
      rw [List.find?_eq_none] at hf ⊢
      intro x hx
      exact hf x (h.mem_iff.mpr hx)
    rw [h2]
  | some e =>
    have hpe : (e.path == p) = true :=
      @List.find?_some FsEntry (fun x => x.path == p) e fs1 hf
    have hme : e ∈ fs1 :=
      @List.mem_of_find?_eq_some FsEntry (fun x => x.path == p) e fs1 hf
    cases hf2 : fs2.find? (fun e => e.path == p) with
    | none =>
      exact absurd hpe (List.find?_eq_none.mp hf2 e (h.mem_iff.mp hme))
    | some e2 =>
      have hpe2 : (e2.path == p) = true :=
        @List.find?_some FsEntry (fun x => x.path == p) e2 fs2 hf2
      have hme2 : e2 ∈ fs1 := h.mem_iff.mpr
        (@List.mem_of_find?_eq_some FsEntry (fun x => x.path == p) e2 fs2 hf2)
      have hee : e = e2 := List.inj_on_of_nodup_map hnd hme hme2
        (by rw [beq_iff_eq] at hpe hpe2; rw [hpe, hpe2])
      rw [hee]

/-- Loading a path list depends on the filesystem only through readFile. -/
theorem loadPaths_congr {E : Type} (parse : Str → Except E Document)
    (stampOn : Bool) {fs1 fs2 : Fsys}
    (hread : ∀ p, readFile fs1 p = readFile fs2 p) (paths : List Str) :
    loadPaths parse stampOn fs1 paths
      = loadPaths parse stampOn fs2 paths := by
  induction paths with
  | nil => rfl
  | cons p ps ih =>
    unfold loadPaths loadPath
    rw [hread p, ih]

/-- Loading one source is independent of the enumeration order of a
path-unique filesystem. -/
theorem loadSource_congr {E : Type} (glob : Str → Str → Bool)
    (parse : Str → Except E Document) (stampOn : Bool) {fs1 fs2 : Fsys}
    (h : fs1.Perm fs2) (hnd : (fs1.map FsEntry.path).Nodup)
    (pattern : Str) :
    loadSource glob parse stampOn fs1 pattern
      = loadSource glob parse stampOn fs2 pattern := by
  unfold loadSource
  rw [match_perm glob h pattern]
  cases Match glob fs2 pattern with
  | error e => rfl
  | ok paths => exact loadPaths_congr parse stampOn (readFile_perm h hnd) paths

/-- Unfolding equation of renderAll on a cons cell. -/
theorem renderAll_cons {E : Type} (glob : Str → Str → Bool)
    (parse : Str → Except E Document) (filters : List DocFilter)
    (ts : List DocTransformer) (stampOn : Bool) (fsys : Fsys) (pat : Str)
    (rest : List (Fsys × Str)) :
    renderAll glob parse filters ts stampOn ((fsys, pat) :: rest) =
      match loadSource glob parse stampOn fsys pat with
      | .error e => .error e
      | .ok docs =>
        match pipelineApply filters ts docs with
        | .error e => .error (.transformErr e)
        | .ok out =>
          match renderAll glob parse filters ts stampOn rest with
          | .error e => .error e
          | .ok outs => .ok (out ++ outs) := rfl

/-- C9: Render is deterministic — with fixed configuration (filters,
transformers, stamping, patterns) and the same filesystems up to
(path-unique) enumeration order, two Render passes produce identical output
sequences, byte-for-byte and in the same order. -/
theorem render_deterministic {E : Type} (glob : Str → Str → Bool)
    (parse : Str → Except E Document) (filters : List DocFilter)
    (ts : List DocTransformer) (stampOn : Bool)
    (ss1 ss2 : List (Fsys × Str))
    (h : List.Forall₂ (fun a b => a.2 = b.2 ∧ a.1.Perm b.1 ∧
        (a.1.map FsEntry.path).Nodup) ss1 ss2) :
    renderAll glob parse filters ts stampOn ss1 =
      renderAll glob parse filters ts stampOn ss2 := by
  induction h with
  | nil => rfl
  | @cons a b as bs hab hrest ih =>
    obtain ⟨fsa, pata⟩ := a
    obtain ⟨fsb, patb⟩ := b
    obtain ⟨hpat, hperm, hnd⟩ := hab
    dsimp only at hpat hperm hnd
    subst hpat
    rw [renderAll_cons, renderAll_cons,
      loadSource_congr glob parse stampOn hperm hnd pata, ih]

/-- A one-document file entry. -/
def entryA : FsEntry :=
  { path := "a.yaml".data, isDir := false, data := "x: 1".data }

/-- Another one-document file entry. -/
def entryB : FsEntry :=
  { path := "b.yaml".data, isDir := false, data := "y: 2".data }

/-- A parser that accepts every segment as a fixed document. -/
def constParse : Str → Except Unit Document :=
  fun _ => .ok (docNamed "n".data "m".data)

/-- Witness: rendering the same two-file filesystem enumerated in either
order gives identical output. -/
theorem render_deterministic_witness :
    renderAll (fun _ _ => true) constParse [] [] false
        [([entryA, entryB], "*".data)] =
      renderAll (fun _ _ => true) constParse [] [] false
        [([entryB, entryA], "*".data)] :=
  render_deterministic _ _ _ _ _ _ _
    (List.Forall₂.cons ⟨rfl, List.Perm.swap _ _ _, by decide⟩
      List.Forall₂.nil)

/-- Single-flight invariant: in every reachable state the in-flight keys
are pairwise distinct. -/
theorem flightKeys_nodup {K V E : Type} [DecidableEq K]
    {s : FlightState K V E} (h : ReachableFS s) : (flightKeys s).Nodup := by
  induction h with
  | init => simp [initFlight, flightKeys]
  | next hr hstep ih =>
    cases hstep with
    | hit _ _ _ _ _ _ _ => exact ih
    | start k c now h1 h2 =>
      simp only [startPost, flightKeys, List.map_cons]
      exact List.nodup_cons.mpr ⟨h2, ih⟩
    | join _ _ _ => exact ih
    | finishOk k v now ttl h1 =>
      simp only [finishOkPost, finishPost, flightKeys]
      exact List.Nodup.sublist ((List.filter_sublist _).map Prod.fst) ih
    | finishErr k e h1 =>
      simp only [finishErrPost, finishPost, flightKeys]
      exact List.Nodup.sublist ((List.filter_sublist _).map Prod.fst) ih

/-- Every result delivered by a completion step carries that completion's
result. -/
theorem mem_finish_delivered {K V E : Type} [DecidableEq K]
    (s : FlightState K V E) (k : K) (r : Except E V)
    (es : List (K × (V × Nat))) (c' : Nat) (r' : Except E V)
    (hm : (c', r') ∈ (finishPost s k r es).delivered)
    (hnm : (c', r') ∉ s.delivered) : r' = r := by
  simp only [finishPost] at hm
  rcases List.mem_append.mp hm with hm1 | hm2
  · rcases List.mem_append.mp hm1 with ha | hb
    · rcases List.mem_map.mp ha with ⟨f, _, hf⟩
      exact (congrArg Prod.snd hf).symm
    · rcases List.mem_map.mp hb with ⟨w, _, hw⟩
      exact (congrArg Prod.snd hw).symm
  · exact absurd hm2 hnm

/-- C1: at most one loader computation is in flight per key at any instant;
every result delivered by a single step is the same for all recipients (a
completion hands the one result to the leader and every waiter, with no
loader re-invocation); and the loader is only ever invoked by a caller that
found the entry stale and no computation in flight. -/
theorem single_flight_per_key (K V E : Type) [DecidableEq K] :
    (∀ s : FlightState K V E, ReachableFS s → ∀ k : K,
        s.flights.countP (fun f => f.1 == k) ≤ 1) ∧
    (∀ s t : FlightState K V E, CacheStep s t → ∀ c1 r1 c2 r2,
        (c1, r1) ∈ t.delivered → (c2, r2) ∈ t.delivered →
        (c1, r1) ∉ s.delivered → (c2, r2) ∉ s.delivered → r1 = r2) ∧
    (∀ s t : FlightState K V E, CacheStep s t → t.loaderLog ≠ s.loaderLog →
        ∃ k now, t.loaderLog = k :: s.loaderLog ∧
          staleAt s.entries k now = true ∧ k ∉ flightKeys s ∧
          k ∈ flightKeys t) := by
  refine ⟨?_, ?_, ?_⟩
  · intro s hs k
    have hnd := flightKeys_nodup hs
    have hcount := List.nodup_iff_count_le_one.mp hnd k
    rw [List.count_eq_countP, flightKeys, List.countP_map] at hcount
    exact hcount
  · intro s t hstep c1 r1 c2 r2 h1 h2 hn1 hn2
    cases hstep with
    | hit k c v exp now hl he =>
      simp only [hitPost] at h1 h2
      rcases List.mem_cons.mp h1 with he1 | he1
      · rcases List.mem_cons.mp h2 with he2 | he2
        · rw [show r1 = Except.ok v from congrArg Prod.snd he1,
            show r2 = Except.ok v from congrArg Prod.snd he2]
        · exact absurd he2 hn2
      · exact absurd he1 hn1
    | start k c now hst hnf =>
      exact absurd h1 hn1
    | join k c hf =>
      exact absurd h1 hn1
    | finishOk k v now ttl hf =>
      rw [mem_finish_delivered s k (Except.ok v)
          (setAssoc s.entries k (v, now + ttl)) c1 r1 h1 hn1,
        mem_finish_delivered s k (Except.ok v)
          (setAssoc s.entries k (v, now + ttl)) c2 r2 h2 hn2]
    | finishErr k e hf =>
      rw [mem_finish_delivered s k (Except.error e) s.entries c1 r1 h1 hn1,
        mem_finish_delivered s k (Except.error e) s.entries c2 r2 h2 hn2]
  · intro s t hstep hne
    cases hstep with
    | hit _ _ _ _ _ _ _ => exact absurd rfl hne
    | start k c now hst hnf =>
      exact ⟨k, now, rfl, hst, hnf, by simp [startPost, flightKeys]⟩
    | join _ _ _ => exact absurd rfl hne
    | finishOk _ _ _ _ _ => exact absurd rfl hne
    | finishErr _ _ _ => exact absurd rfl hne

/-- Witness: the invariant instantiated at the initial state of a concrete
cache instance. -/
theorem single_flight_per_key_witness :
    (initFlight Nat Nat Nat).flights.countP (fun f => f.1 == 0) ≤ 1 :=
  (single_flight_per_key Nat Nat Nat).1 _ ReachableFS.init 0

/-- C3: a failed loader computation is a legal completion step that leaves
every cache entry exactly as it was (absent stays absent, a prior entry is
retained unmodified), delivers the one error to every waiter blocked on that
key, and delivers nothing but that error in the step. -/
theorem failed_computation_isolated {K V E : Type} [DecidableEq K]
    (s : FlightState K V E) (k : K) (e : E) (hk : k ∈ flightKeys s) :
    CacheStep s (finishErrPost s k e) ∧
    (∀ key, lookupAssoc (finishErrPost s k e).entries key
        = lookupAssoc s.entries key) ∧
    (∀ c, c ∈ waitersOf s k →
        (c, (Except.error e : Except E V)) ∈
          (finishErrPost s k e).delivered) ∧
    (∀ c r, (c, r) ∈ (finishErrPost s k e).delivered →
        (c, r) ∉ s.delivered → r = Except.error e) := by
  refine ⟨CacheStep.finishErr s k e hk, fun key => rfl, ?_, ?_⟩
  · intro c hc
    simp only [finishErrPost, finishPost]
    refine List.mem_append.mpr (Or.inl (List.mem_append.mpr (Or.inr ?_)))
    exact List.mem_map.mpr ⟨c, hc, rfl⟩
  · intro c r hm hnm
    exact mem_finish_delivered s k (Except.error e) s.entries c r hm hnm

/-- A concrete cache state with one in-flight computation and one waiter. -/
def demoFlight : FlightState Nat Nat Nat :=
  { entries := [], flights := [(0, 7)], waiting := [(0, 3)],
    delivered := [], loaderLog := [0] }

/-- Witness: the waiter of the concrete failed computation receives the
error. -/
theorem failed_computation_isolated_witness :
    (3, (Except.error 5 : Except Nat Nat)) ∈
      (finishErrPost demoFlight 0 5).delivered :=
  (failed_computation_isolated demoFlight 0 5 (by decide)).2.2.1 3 (by decide)

/-- Allocation leaves existing cells unchanged. -/
theorem readCell_allocCell {A : Type} (h : Heap A) (v : A) (b : Nat)
    (hb : b < h.cells.length) :
    (h.allocCell v).2.readCell b = h.readCell b := by
  simp only [Heap.allocCell, Heap.readCell]
  rw [List.getElem?_append, if_pos hb]

/-- The freshly allocated cell holds the given value. -/
theorem readCell_allocCell_self {A : Type} (h : Heap A) (v : A) :
    (h.allocCell v).2.readCell h.cells.length = some v := by
  simp only [Heap.allocCell, Heap.readCell]
  rw [List.getElem?_append_right (le_refl _)]
  simp

/-- Writing one cell leaves every other cell unchanged. -/
theorem readCell_writeCell_ne {A : Type} (h : Heap A) (a b : Nat) (d : A)
    (hne : a ≠ b) : (h.writeCell a d).readCell b = h.readCell b := by
  simp only [Heap.writeCell, Heap.readCell]
  rw [List.getElem?_set, if_neg hne]

/-- Writing a cell preserves the heap size. -/
theorem writeCell_length {A : Type} (h : Heap A) (a : Nat) (d : A) :
    (h.writeCell a d).cells.length = h.cells.length :=
  List.length_set _ _ _

/-- Heaps agreeing on a set of addresses read equally over them. -/
theorem readCells_congr {A : Type} {h1 h2 : Heap A} {addrs : List Nat}
    (hc : ∀ a ∈ addrs, h1.readCell a = h2.readCell a) :
    readCells h1 addrs = readCells h2 addrs := by
  induction addrs with
  | nil => rfl
  | cons a as ih =>
    simp only [readCells, List.map_cons]
    rw [hc a (List.mem_cons_self _ _)]
    have hh := ih (fun x hx => hc x (List.mem_cons_of_mem _ hx))
    simp only [readCells] at hh
    rw [hh]

/-- Deep copy of valid addresses: the heap only grows, every pre-existing
cell is untouched, the returned addresses are fresh (disjoint from every
pre-existing address, the copied sources included), and the copies read back
exactly the source values. -/
theorem deepCopy_spec {A : Type} [Inhabited A] :
    ∀ (addrs : List Nat) (h : Heap A),
      (∀ a ∈ addrs, a < h.cells.length) →
      h.cells.length ≤ (deepCopy h addrs).2.cells.length ∧
      (∀ b, b < h.cells.length →
        (deepCopy h addrs).2.readCell b = h.readCell b) ∧
      (∀ x ∈ (deepCopy h addrs).1,
        h.cells.length ≤ x ∧ x < (deepCopy h addrs).2.cells.length) ∧
      readCells (deepCopy h addrs).2 (deepCopy h addrs).1
        = readCells h addrs
  | [], h, _ => ⟨le_refl _, fun _ _ => rfl, by simp [deepCopy], rfl⟩
  | a :: as, h, hwf => by
    have ha : a < h.cells.length := hwf a (List.mem_cons_self _ _)
    have hlen1 :
        (h.allocCell ((h.readCell a).getD default)).2.cells.length
          = h.cells.length + 1 := by
      simp [Heap.allocCell]
    have hwf1 : ∀ x ∈ as,
        x < (h.allocCell ((h.readCell a).getD default)).2.cells.length := by
      intro x hx
      rw [hlen1]
      exact Nat.lt_succ_of_lt (hwf x (List.mem_cons_of_mem _ hx))
    obtain ⟨hle, hpres, hfr, hvals⟩ :=
      deepCopy_spec as (h.allocCell ((h.readCell a).getD default)).2 hwf1
    have hlenle : h.cells.length
        ≤ (deepCopy h (a :: as)).2.cells.length := by
      refine le_trans ?_ hle
      rw [hlen1]
      exact Nat.le_succ _
    refine ⟨hlenle, ?_, ?_, ?_⟩
    · intro b hb
      have hb1 :
          b < (h.allocCell ((h.readCell a).getD default)).2.cells.length := by
        rw [hlen1]; exact Nat.lt_succ_of_lt hb
      calc (deepCopy h (a :: as)).2.readCell b
          = (h.allocCell ((h.readCell a).getD default)).2.readCell b :=
            hpres b hb1
        _ = h.readCell b := readCell_allocCell h _ b hb
    · intro x hx
      have hx2 : x ∈ h.cells.length ::
          (deepCopy (h.allocCell ((h.readCell a).getD default)).2 as).1 := hx
      rcases List.mem_cons.mp hx2 with rfl | hx3
      · refine ⟨le_refl _, lt_of_lt_of_le ?_ hle⟩
        rw [hlen1]
        exact Nat.lt_succ_self _
      · obtain ⟨hxa, hxb⟩ := hfr x hx3
        refine ⟨le_trans ?_ hxa, hxb⟩
        rw [hlen1]
        exact Nat.le_succ _
    · obtain ⟨v, hv⟩ : ∃ v, h.readCell a = some v :=
        ⟨_, List.getElem?_eq_getElem ha⟩
      have hfreshlt :
          h.cells.length
            < (h.allocCell ((h.readCell a).getD default)).2.cells.length := by
        rw [hlen1]; exact Nat.lt_succ_self _
      have hhead : (deepCopy h (a :: as)).2.readCell h.cells.length
          = h.readCell a := by
        calc (deepCopy h (a :: as)).2.readCell h.cells.length
            = (h.allocCell ((h.readCell a).getD default)).2.readCell
                h.cells.length := hpres _ hfreshlt
          _ = some ((h.readCell a).getD default) :=
              readCell_allocCell_self h _
          _ = h.readCell a := by rw [hv]; rfl
      have htail : readCells
          (deepCopy (h.allocCell ((h.readCell a).getD default)).2 as).2
          (deepCopy (h.allocCell ((h.readCell a).getD default)).2 as).1
            = readCells h as := by
        rw [hvals]
        exact readCells_congr (fun x hx =>
          readCell_allocCell h _ x (hwf x (List.mem_cons_of_mem _ hx)))
      show (deepCopy h (a :: as)).2.readCell h.cells.length ::
          readCells
            (deepCopy (h.allocCell ((h.readCell a).getD default)).2 as).2
            (deepCopy (h.allocCell ((h.readCell a).getD default)).2 as).1
        = h.readCell a :: readCells h as
      rw [hhead, htail]

/-- C2: on a hit with an unexpired entry GetOrCompute returns an
independent deep copy without invoking the loader, keeps the entry table
unchanged, the copy reads back the stored value, and mutating any document
of the returned sequence never changes the value served by the subsequent
hit for the same key. -/
theorem cache_hit_deep_copy_isolation {K : Type} [DecidableEq K]
    (c : HCache K) (k : K) (now ttl : Nat)
    (loader : Unit → Except Str (List Document))
    (addrs : List Nat) (exp : Nat)
    (hlook : lookupAssoc c.entries k = some (addrs, exp))
    (hexp : now < exp)
    (hwf : ∀ a ∈ addrs, a < c.heap.cells.length) :
    ∃ fresh c2,
      GetOrCompute c k now ttl loader = (.ok fresh, c2, 0) ∧
      c2.entries = c.entries ∧
      readCells c2.heap fresh = readCells c.heap addrs ∧
      (∀ a ∈ fresh, ∀ d : Document,
        ∃ fresh2 c3,
          GetOrCompute ⟨c2.heap.writeCell a d, c2.entries⟩ k now ttl loader
              = (.ok fresh2, c3, 0) ∧
          readCells c3.heap fresh2 = readCells c.heap addrs) := by
  obtain ⟨hle, hpres, hfr, hvals⟩ := deepCopy_spec addrs c.heap hwf
  have hget : GetOrCompute c k now ttl loader
      = (.ok (deepCopy c.heap addrs).1,
         ⟨(deepCopy c.heap addrs).2, c.entries⟩, 0) := by
    simp only [GetOrCompute, hlook]
    rw [if_pos hexp]
  refine ⟨(deepCopy c.heap addrs).1,
    ⟨(deepCopy c.heap addrs).2, c.entries⟩, hget, rfl, hvals, ?_⟩
  intro a ha d
  have haddr : c.heap.cells.length ≤ a := (hfr a ha).1
  have hwfm : ∀ b ∈ addrs,
      b < ((deepCopy c.heap addrs).2.writeCell a d).cells.length := by
    intro b hb
    rw [writeCell_length]
    exact lt_of_lt_of_le (hwf b hb) hle
  obtain ⟨hle2, hpres2, hfr2, hvals2⟩ :=
    deepCopy_spec addrs ((deepCopy c.heap addrs).2.writeCell a d) hwfm
  have hreads : ∀ b ∈ addrs,
      ((deepCopy c.heap addrs).2.writeCell a d).readCell b
        = c.heap.readCell b := by
    intro b hb
    have hba : b < a := lt_of_lt_of_le (hwf b hb) haddr
    rw [readCell_writeCell_ne _ a b d (Ne.symm (Nat.ne_of_lt hba))]
    exact hpres b (hwf b hb)
  have hget2 : GetOrCompute
      (⟨(deepCopy c.heap addrs).2.writeCell a d, c.entries⟩ : HCache K)
      k now ttl loader
      = (.ok (deepCopy ((deepCopy c.heap addrs).2.writeCell a d) addrs).1,
         ⟨(deepCopy ((deepCopy c.heap addrs).2.writeCell a d) addrs).2,
          c.entries⟩, 0) := by
    simp only [GetOrCompute, hlook]
    rw [if_pos hexp]
  refine ⟨(deepCopy ((deepCopy c.heap addrs).2.writeCell a d) addrs).1,
    ⟨(deepCopy ((deepCopy c.heap addrs).2.writeCell a d) addrs).2,
     c.entries⟩, hget2, ?_⟩
  rw [hvals2]
  exact readCells_congr hreads

/-- A concrete document for the cache-isolation witness. -/
def demoDoc : Document := docNamed "w".data "z".data

/-- A concrete cache whose single entry owns the single heap cell. -/
def demoCache : HCache Nat :=
  { heap := ⟨[demoDoc]⟩, entries := [(0, ([0], 10))] }

/-- Witness: deep-copy isolation at the concrete one-entry cache. -/
theorem cache_hit_deep_copy_isolation_witness :
    ∃ fresh c2,
      GetOrCompute demoCache 0 3 5 (fun _ => .error []) =
        (.ok fresh, c2, 0) ∧
      c2.entries = demoCache.entries ∧
      readCells c2.heap fresh = readCells demoCache.heap [0] ∧
      (∀ a ∈ fresh, ∀ d : Document,
        ∃ fresh2 c3,
          GetOrCompute ⟨c2.heap.writeCell a d, c2.entries⟩ 0 3 5
              (fun _ => .error []) = (.ok fresh2, c3, 0) ∧
          readCells c3.heap fresh2 = readCells demoCache.heap [0]) :=
  cache_hit_deep_copy_isolation demoCache 0 3 5 _ [0] 10 (by decide)
    (by decide) (by decide)
